import Mathlib

/-!
Shallow embedding of the coefficient-editing layer of pymultiscale
(src/pymultiscale/modwt.py).  Arrays are modelled over the rationals:
a 1-D array is a List of rationals, a 3-D array is a triply nested List
(index order [i][j][k], axis 0 = i, axis 1 = j, axis 2 = k).
Coefficient bundles are lists of such arrays.
-/

namespace Pymultiscale

/-- Index-passing map used to model Python loops of the form
`for b in xrange(n): edit coefs[b]` where each iteration touches only
entry `b`.  `mapIdxF g i l` applies `g` to each element together with
its index, starting indices at `i`. -/
def mapIdxF (g : ℕ → α → α) : ℕ → List α → List α
  | _, [] => []
  | i, a :: as => g i a :: mapIdxF g (i + 1) as

/-- Band level as computed at modwt.py:239 and modwt.py:316:
`band_level = int(np.floor(b/7))`.  The divisor is the literal 7
regardless of the dimensionality of the data. -/
def band_level (b : ℕ) : ℕ := b / 7

/-- The band-level formula stated by the spec: `floor(b / k)` where `k`
is the number of directional sub-bands (1 for 1-D, 3 for 2-D, 7 for
3-D).  Declared from the words of the spec, for comparison with
`band_level` above. -/
def band_level_claimed (k b : ℕ) : ℕ := b / k

/-- `ndirections` as computed at modwt.py:226-233 from
`ndims = len(coefs[0].shape)`; dimensionalities outside 1..3 raise
NotImplementedError (modelled as `none`).  The value is computed by
`threshold_by_band` but never used afterwards. -/
def ndirections (ndims : ℕ) : Option ℕ :=
  if ndims = 1 then some 1
  else if ndims = 2 then some 3
  else if ndims = 3 then some 7
  else none

/-- Optional threshold scaling, modwt.py:272-273 and modwt.py:290-291:
`if scaling_factor != None: band_threshold /= scaling_factor`. -/
def applyScaling : Option ℚ → ℚ → ℚ
  | none, t => t
  | some s, t => t / s

/-- The three sequential in-place edits at modwt.py:294-299 (and
modwt.py:281-286), acting on one coefficient.  Each `np.where` is
recomputed on the already mutated array, so the three steps compose
sequentially:
step 1: entries `> T` are decreased by `T`;
step 2: entries whose absolute value is now `<= T` are zeroed;
step 3: entries now `< -T` are increased by `T`. -/
def soft_step (t x : ℚ) : ℚ :=
  let x1 := if x > t then x - t else x
  let x2 := if |x1| ≤ t then 0 else x1
  if x2 < -t then x2 + t else x2

/-- Soft thresholding as defined by the spec (and by the glossary):
values `> T` are reduced by `T`, values with `|x| <= T` are set to 0,
values `< -T` are increased by `T`, each predicate read on the original
value.  Declared from the words of the spec, for comparison with
`soft_step` above. -/
def soft_threshold (t x : ℚ) : ℚ :=
  if x > t then x - t else if |x| ≤ t then 0 else if x < -t then x + t else x

/-- Whole-band branch of `threshold_by_band` (modwt.py:288-304) applied
to one band: call `threshold_func(coefs[b], band_level, None)`, scale
the threshold, then apply the three sequential edits elementwise.  The
returned `band_center` is unused in this branch (the center-based hard
gate, modwt.py:301-304, is commented out). -/
def whole_band_edit (f : List ℚ → ℕ → Option ℤ → ℚ × ℚ)
    (scaling : Option ℚ) (lvl : ℕ) (band : List ℚ) : List ℚ :=
  let ct := f band lvl none
  let t := applyScaling scaling ct.2
  band.map (soft_step t)

/-- `threshold_by_band` (modwt.py:209-306) for a 1-D bundle with
`within_axis = None`: each band is a 1-D array (`List` of rationals).
The loop runs over `b in xrange(len(coefs) - 1)`, skipping the final
low-pass band; a band whose `band_level` is in `skip_bands` is left
untouched; every other band is edited in place by the whole-band
branch. -/
def threshold_by_band_1d (coefs : List (List ℚ))
    (f : List ℚ → ℕ → Option ℤ → ℚ × ℚ)
    (skip_bands : List ℕ) (scaling : Option ℚ) : List (List ℚ) :=
  mapIdxF (fun b band =>
    if b < coefs.length - 1 then
      if band_level b ∈ skip_bands then band
      else whole_band_edit f scaling (band_level b) band
    else band) 0 coefs

/-- A 3-D array: index order [i][j][k] with axis 0 = i, axis 1 = j,
axis 2 = k (rectangularity is assumed by hypotheses where relevant). -/
abbrev Arr3 := List (List (List ℚ))

/-- The phase-adjusted plane index, modwt.py:264-269:
`roll_offset = 2**(band_level + 1); adjusted_plane = p - roll_offset;`
then one conditional subtraction of `num_planes` (if the value is
`>= num_planes`) followed by one conditional addition of `num_planes`
(if the value is `< 0`). -/
def adjusted_plane (lvl p num_planes : ℕ) : ℤ :=
  let roll_offset : ℤ := 2 ^ (lvl + 1)
  let a : ℤ := (p : ℤ) - roll_offset
  let a' : ℤ := if a ≥ (num_planes : ℤ) then a - (num_planes : ℤ) else a
  if a' < 0 then a' + (num_planes : ℤ) else a'

/-- `coefs[b].shape[within_axis]` for a 3-D array. -/
def dim3 (ax : ℕ) (a : Arr3) : ℕ :=
  if ax = 0 then a.length
  else if ax = 1 then (a.headD []).length
  else ((a.headD []).headD []).length

/-- The plane slice `A` taken at modwt.py:248-253: `coefs[b][p,:,:]`,
`coefs[b][:,p,:]` or `coefs[b][:,:,p]` depending on `within_axis`. -/
def planeSlice (ax : ℕ) (a : Arr3) (p : ℕ) : List (List ℚ) :=
  if ax = 0 then a.getD p []
  else if ax = 1 then a.map (fun mat => mat.getD p [])
  else a.map (fun mat => mat.map (fun row => row.getD p 0))

/-- The edit applied to one coefficient of one plane in the per-plane
branch of `threshold_by_band` (modwt.py:277-286): first the
center-relative hard gate (entries with `|x - center| < threshold` are
zeroed, modwt.py:277-278), then the three sequential soft-threshold
edits (modwt.py:281-286). -/
def plane_point_edit (c t x : ℚ) : ℚ :=
  soft_step t (if |x - c| < t then 0 else x)

/-- Per-plane branch of `threshold_by_band` (modwt.py:245-286) applied
to one 3-D band: for each plane index `p` along `within_axis`, the
slice is passed to `threshold_func` together with the band level and
the phase-adjusted plane index; the returned threshold is optionally
scaled; the plane is then edited in place.  Planes along one axis are
disjoint, so the sequential in-place loop is the same as editing every
entry according to its plane index. -/
def band_edit_axis (f : List (List ℚ) → ℕ → ℤ → ℚ × ℚ)
    (scaling : Option ℚ) (ax : ℕ) (lvl : ℕ) (a : Arr3) : Arr3 :=
  let np := dim3 ax a
  let g : ℕ → ℚ → ℚ := fun p x =>
    let ct := f (planeSlice ax a p) lvl (adjusted_plane lvl p np)
    plane_point_edit ct.1 (applyScaling scaling ct.2) x
  if ax = 0 then mapIdxF (fun p mat => mat.map (fun row => row.map (g p))) 0 a
  else if ax = 1 then
    a.map (fun mat => mapIdxF (fun j row => row.map (g j)) 0 mat)
  else a.map (fun mat => mat.map (fun row => mapIdxF (fun k x => g k x) 0 row))

/-- `threshold_by_band` (modwt.py:209-306) for a 3-D bundle with
`within_axis` given (the Python dispatches `within_axis == 0`,
`within_axis == 1`, else axis 2).  The loop runs over
`b in xrange(len(coefs) - 1)`, skipping the final low-pass band; a band
whose `band_level` is in `skip_bands` is left untouched; every other
band is edited in place by the per-plane branch. -/
def threshold_by_band_3d_axis (coefs : List Arr3)
    (f : List (List ℚ) → ℕ → ℤ → ℚ × ℚ)
    (skip_bands : List ℕ) (within_axis : ℕ) (scaling : Option ℚ) :
    List Arr3 :=
  mapIdxF (fun b a =>
    if b < coefs.length - 1 then
      if band_level b ∈ skip_bands then a
      else band_edit_axis f scaling within_axis (band_level b) a
    else a) 0 coefs

/-- `low_pass_spatial_filter` (modwt.py:309-330): for every band except
the final low-pass one, with `band_level = int(np.floor(b/7))`, every
plane `p` along `within_axis` satisfying
`p > range[0] and p < range[1] and band_level < max_band` is zeroed in
place. -/
def low_pass_spatial_filter (coefs : List Arr3) (within_axis : ℕ)
    (lo hi : ℤ) (max_band : ℕ) : List Arr3 :=
  mapIdxF (fun b a =>
    if b < coefs.length - 1 then
      let lvl := band_level b
      let cond : ℕ → Prop := fun p => (p : ℤ) > lo ∧ (p : ℤ) < hi ∧ lvl < max_band
      if within_axis = 0 then
        mapIdxF (fun p mat =>
          if cond p then mat.map (fun row => row.map (fun _ => 0)) else mat) 0 a
      else if within_axis = 1 then
        a.map (fun mat => mapIdxF (fun j row =>
          if cond j then row.map (fun _ => 0) else row) 0 mat)
      else
        a.map (fun mat => mat.map (fun row => mapIdxF (fun k x =>
          if cond k then 0 else x) 0 row))
    else a) 0 coefs

/-- An N-dimensional numpy array, modelled as its shape together with
its data laid out in column-major (Fortran) order. -/
structure NDArr where
  shape : List ℕ
  data : List ℚ
deriving DecidableEq

/-- `coefs_to_vec` (modwt.py:159-160):
`np.hstack([vec.ravel(order = f) for vec in coefs])` — the
column-major data of every array, concatenated in bundle order. -/
def coefs_to_vec (coefs : List NDArr) : List ℚ :=
  (coefs.map NDArr.data).flatten

/-- Split a vector into `n` consecutive chunks of length `len` each
(the equal-division split performed by `np.split(coef_vec, n)`). -/
def splitN (n len : ℕ) : List ℚ → List (List ℚ)
  | _v => match n with
    | 0 => []
    | m + 1 => _v.take len :: splitN m len (_v.drop len)

/-- `vec_to_coefs` (modwt.py:162-163):
`np.split(coef_vec, len(self.example_coefs))` requires the vector
length to be divisible into `n_example` equal chunks; each chunk is
then `np.reshape(vec, self.img_shape, order = f)`, which requires the
chunk length to equal the product of `img_shape`.  Either failure is
modelled as `none`. -/
def vec_to_coefs (img_shape : List ℕ) (n_example : ℕ) (v : List ℚ) :
    Option (List NDArr) :=
  if n_example = 0 then none
  else if v.length % n_example = 0 ∧ v.length / n_example = img_shape.prod then
    some ((splitN n_example (v.length / n_example) v).map
      (fun chunk => ⟨img_shape, chunk⟩))
  else none

/-- Python exceptions surfaced by the update operators. -/
inductive PyErr
  | assertionError
  | indexError
deriving DecidableEq

/-- `update` (modwt.py:165-181), the additive update: asserts
`len(coefs) == len(update)`, then for each band adds
`delta = alpha * update[b]` to `coefs[b]` in place while accumulating
`np.square(delta).sum()`.  The Python returns
`(coefs, np.sqrt(update_squared_sum))`; the square root is not
computable over the rationals, so the model returns
`(coefs, update_squared_sum)` and the theorems below speak about
`Real.sqrt` of the second component. -/
def update (coefs upd : List (List ℚ)) (alpha : ℚ) :
    Except PyErr (List (List ℚ) × ℚ) :=
  if coefs.length = upd.length then
    let deltas := upd.map (fun u => u.map (fun x => alpha * x))
    .ok (List.zipWith (fun c d => List.zipWith (· + ·) c d) coefs deltas,
      (deltas.map (fun d => (d.map (fun x => x ^ 2)).sum)).sum)
  else .error .assertionError

/-- One band of `multiplicative_update` (modwt.py:192):
`((coefs[b] * numerator[b]) / normalization[b]) / (denominator[b] + alpha)`,
elementwise. -/
def multiplicative_update_band (c n nor d : List ℚ) (alpha : ℚ) : List ℚ :=
  List.zipWith (fun x y => x / (y + alpha))
    (List.zipWith (fun x y => x / y) (List.zipWith (· * ·) c n) nor) d

/-- `multiplicative_update` (modwt.py:183-193): asserts
`len(coefs) == len(numerator) == len(denominator)` — the length of
`normalization` is not part of the assertion — then replaces each band.
An out-of-range access `normalization[b]` raises IndexError. -/
def multiplicative_update
    (coefs numerator denominator normalization : List (List ℚ))
    (alpha : ℚ) : Except PyErr (List (List ℚ)) :=
  if coefs.length = numerator.length ∧ numerator.length = denominator.length then
    (List.range coefs.length).foldlM (fun acc b =>
      match normalization[b]? with
      | none => .error .indexError
      | some nor => .ok (acc.set b
          (multiplicative_update_band (acc.getD b []) (numerator.getD b [])
            nor (denominator.getD b []) alpha))) coefs
  else .error .assertionError

/-- Minimum of a shape tuple (`np.min(data.shape)`); real shapes are
nonempty, which theorems assume where it matters. -/
def shapeMin : List ℕ → ℕ
  | [] => 0
  | [a] => a
  | a :: rest => min a (shapeMin rest)

/-- Fuel-driven ceiling base-2 logarithm: `clog2Aux fuel n` is the
least `k` with `n <= 2^k`, provided `fuel >= n`. -/
def clog2Aux : ℕ → ℕ → ℕ
  | 0, _ => 0
  | fuel + 1, n => if n ≤ 1 then 0 else clog2Aux fuel ((n + 1) / 2) + 1

/-- `int(np.ceil(np.log2(m)))` for a positive integer `m`. -/
def clog2 (n : ℕ) : ℕ := clog2Aux n n

/-- Errors raised by `modwt_transform`. -/
inductive TErr
  | assertionError
  | notImplementedError
deriving DecidableEq

/-- A successful `modwt_transform` call hands `data`, `wavelet_type`
and the effective `num_bands` to the engine variant selected by the
dimensionality (`modwt1`/`modwt2`/`modwt3` of pymultiscale.dwt, outside
this module). -/
structure EngineCall where
  ndims : ℕ
  num_bands : ℤ
deriving DecidableEq

/-- Control flow of `modwt_transform` (modwt.py:20-60), keeping the
shape of the data and the optional caller-supplied `num_bands`: when
`num_bands == None` it is derived as
`int(np.ceil(np.log2(np.min(data.shape))) - 3)` and
`assert num_bands > 0` is executed; a caller-supplied value is used as
is.  Dimensionalities outside 1..3 raise NotImplementedError. -/
def modwt_transform (shape : List ℕ) (num_bands : Option ℤ) :
    Except TErr EngineCall :=
  let ndims := shape.length
  match num_bands with
  | some nb =>
    if ndims = 1 ∨ ndims = 2 ∨ ndims = 3 then .ok ⟨ndims, nb⟩
    else .error .notImplementedError
  | none =>
    let nb : ℤ := (clog2 (shapeMin shape) : ℤ) - 3
    if nb > 0 then
      if ndims = 1 ∨ ndims = 2 ∨ ndims = 3 then .ok ⟨ndims, nb⟩
      else .error .notImplementedError
    else .error .assertionError

/-! ### Helper lemmas -/

theorem length_mapIdxF (g : ℕ → α → α) (i : ℕ) (l : List α) :
    (mapIdxF g i l).length = l.length := by
  induction l generalizing i with
  | nil => rfl
  | cons a as ih => simp [mapIdxF, ih]

theorem getElem?_mapIdxF (g : ℕ → α → α) (i j : ℕ) (l : List α) :
    (mapIdxF g i l)[j]? = (l[j]?).map (g (i + j)) := by
  induction l generalizing i j with
  | nil => simp [mapIdxF]
  | cons a as ih =>
    cases j with
    | zero => simp [mapIdxF]
    | succ j =>
      have harith : i + 1 + j = i + (j + 1) := by omega
      simp [mapIdxF, ih, harith]

theorem getLast?_mapIdxF (g : ℕ → α → α) (l : List α) :
    (mapIdxF g 0 l).getLast? = (l.getLast?).map (g (l.length - 1)) := by
  rw [List.getLast?_eq_getElem?, List.getLast?_eq_getElem?, length_mapIdxF,
    getElem?_mapIdxF]
  simp

theorem getLast?_mapIdxF_id (g : ℕ → α → α) (l : List α)
    (hg : ∀ a, g (l.length - 1) a = a) :
    (mapIdxF g 0 l).getLast? = l.getLast? := by
  rw [getLast?_mapIdxF]
  cases h : l.getLast? with
  | none => rfl
  | some a => simp [hg]

theorem map_eq_self_of (l : List α) (g : α → α) (h : ∀ x ∈ l, g x = x) :
    l.map g = l := by
  induction l with
  | nil => rfl
  | cons a as ih =>
    simp only [List.map_cons, h a (by simp)]
    rw [ih (fun x hx => h x (by simp [hx]))]

theorem mapIdxF_eq_self (g : ℕ → α → α) (i : ℕ) (l : List α)
    (h : ∀ j a, g j a = a) : mapIdxF g i l = l := by
  induction l generalizing i with
  | nil => rfl
  | cons a as ih => simp [mapIdxF, h, ih]

theorem soft_step_eq_zero (t x : ℚ) (ht : 0 ≤ t) (hx : |x| ≤ t) :
    soft_step t x = 0 := by
  have h2 := (abs_le.mp hx).2
  unfold soft_step
  dsimp only
  rw [if_neg (not_lt.mpr h2), if_pos hx,
    if_neg (show ¬ (0 : ℚ) < -t from by linarith)]

theorem flatten_length_const (ls : List (List ℚ)) (P : ℕ)
    (h : ∀ l ∈ ls, l.length = P) : ls.flatten.length = ls.length * P := by
  induction ls with
  | nil => simp
  | cons a as ih =>
    rw [List.flatten_cons, List.length_append, h a (by simp),
      ih (fun l hl => h l (by simp [hl])), List.length_cons]
    ring

theorem splitN_flatten (ls : List (List ℚ)) (P : ℕ)
    (h : ∀ l ∈ ls, l.length = P) :
    splitN ls.length P ls.flatten = ls := by
  induction ls with
  | nil => rfl
  | cons a as ih =>
    have ha : a.length = P := h a (by simp)
    have ht : (a ++ as.flatten).take P = a := by
      rw [← ha, List.take_append_of_le_length le_rfl, List.take_length]
    have hd : (a ++ as.flatten).drop P = as.flatten := by
      rw [← ha, List.drop_append_of_le_length le_rfl, List.drop_length,
        List.nil_append]
    simp only [List.length_cons, List.flatten_cons, splitN]
    rw [ht, hd, ih (fun l hl => h l (by simp [hl]))]

/-! ### Claim C1 -/

/-- C1, counterexample: for a 1-D bundle (`k = 1` per the claim) with
`skip_bands = {1}`, the claim predicts that detail band `b = 1`
(claimed band level `1/1 = 1`) is skipped and stays `[4]`; the code
computes `band_level = floor(1/7) = 0`, does not skip it, and
soft-thresholds it to `[3]`. -/
theorem C1_counterexample :
    threshold_by_band_1d [[4], [4], [0]] (fun _ _ _ => (0, 1)) [1] none
      = [[3], [3], [0]] ∧
    band_level_claimed 1 1 = 1 ∧ band_level 1 = 0 ∧
    ([3] : List ℚ) ≠ [4] := by
  refine ⟨?_, by decide, by decide, by norm_num⟩
  norm_num [threshold_by_band_1d, whole_band_edit, soft_step, applyScaling,
    band_level, mapIdxF]

/-- C1 (amended): for every bundle and every detail band index
`b < len(bundle) - 1`, `threshold_by_band` computes the band level as
`floor(b / 7)` regardless of dimensionality (the divisor is the 3-D
direction count 7 even for 1-D and 2-D bundles), and uses that level
both for skip-band filtering and for selecting the per-band edit. -/
theorem C1_band_level_is_div7 (coefs1 : List (List ℚ))
    (f1 : List ℚ → ℕ → Option ℤ → ℚ × ℚ)
    (coefs3 : List Arr3) (f3 : List (List ℚ) → ℕ → ℤ → ℚ × ℚ)
    (skip_bands : List ℕ) (ax : ℕ) (scaling : Option ℚ) (b1 b3 : ℕ)
    (h1 : b1 < coefs1.length - 1) (h3 : b3 < coefs3.length - 1) :
    (band_level b1 = b1 / 7 ∧
      (threshold_by_band_1d coefs1 f1 skip_bands scaling)[b1]? =
        (coefs1[b1]?).map (fun band =>
          if b1 / 7 ∈ skip_bands then band
          else whole_band_edit f1 scaling (b1 / 7) band)) ∧
    (band_level b3 = b3 / 7 ∧
      (threshold_by_band_3d_axis coefs3 f3 skip_bands ax scaling)[b3]? =
        (coefs3[b3]?).map (fun a =>
          if b3 / 7 ∈ skip_bands then a
          else band_edit_axis f3 scaling ax (b3 / 7) a)) := by
  constructor
  · refine ⟨rfl, ?_⟩
    rw [threshold_by_band_1d, getElem?_mapIdxF]
    cases coefs1[b1]? with
    | none => rfl
    | some band => simp [h1, band_level]
  · refine ⟨rfl, ?_⟩
    rw [threshold_by_band_3d_axis, getElem?_mapIdxF]
    cases coefs3[b3]? with
    | none => rfl
    | some a => simp [h3, band_level]

/-- Witness for `C1_band_level_is_div7` at a concrete input. -/
theorem C1_band_level_is_div7_witness :
    (0 < ([[(1 : ℚ)], [1]] : List (List ℚ)).length - 1) ∧
    (0 < ([[[[(1 : ℚ)]]], [[[1]]]] : List Arr3).length - 1) ∧
    ((band_level 0 = 0 / 7 ∧
      (threshold_by_band_1d [[(1 : ℚ)], [1]] (fun _ _ _ => (0, 0)) [] none)[0]? =
        (([[(1 : ℚ)], [1]] : List (List ℚ))[0]?).map (fun band =>
          if 0 / 7 ∈ ([] : List ℕ) then band
          else whole_band_edit (fun _ _ _ => (0, 0)) none (0 / 7) band)) ∧
    (band_level 0 = 0 / 7 ∧
      (threshold_by_band_3d_axis [[[[(1 : ℚ)]]], [[[1]]]] (fun _ _ _ => (0, 0)) [] 2 none)[0]? =
        (([[[[(1 : ℚ)]]], [[[1]]]] : List Arr3)[0]?).map (fun a =>
          if 0 / 7 ∈ ([] : List ℕ) then a
          else band_edit_axis (fun _ _ _ => (0, 0)) none 2 (0 / 7) a))) :=
  ⟨by decide, by decide,
    C1_band_level_is_div7 [[(1 : ℚ)], [1]] (fun _ _ _ => (0, 0))
      [[[[(1 : ℚ)]]], [[[1]]]] (fun _ _ _ => (0, 0)) [] 2 none 0 0
      (by decide) (by decide)⟩

/-! ### Claim C2 -/

/-- C2, counterexample: with `num_planes = 2` and `band_level = 1` the
roll offset is `2^2 = 4`, and for `p = 0` the single conditional
wrap-around yields `adjusted_plane = -2`, outside `[0, num_planes)`.
A full run confirms `threshold_func` receives the negative plane index:
with a threshold function returning threshold 0 for a negative adjusted
plane and 10 otherwise, the level-1 band `[[[5, 5]]]` is left unchanged
(threshold 0), whereas under the claim every plane would have received
threshold 10 and been zeroed. -/
theorem C2_counterexample :
    adjusted_plane 1 0 2 = -2 ∧ ¬ (0 ≤ (-2 : ℤ)) ∧
    threshold_by_band_3d_axis
      [[[[0, 0]]], [[[0, 0]]], [[[0, 0]]], [[[0, 0]]], [[[0, 0]]], [[[0, 0]]],
        [[[0, 0]]], [[[5, 5]]], [[[0, 0]]]]
      (fun _ _ ap => (0, if ap < 0 then 0 else 10)) [0] 2 none =
      [[[[0, 0]]], [[[0, 0]]], [[[0, 0]]], [[[0, 0]]], [[[0, 0]]], [[[0, 0]]],
        [[[0, 0]]], [[[5, 5]]], [[[0, 0]]]] := by
  refine ⟨by decide, by decide, ?_⟩
  norm_num [threshold_by_band_3d_axis, band_edit_axis, mapIdxF, band_level,
    plane_point_edit, soft_step, applyScaling, planeSlice, dim3, adjusted_plane]

/-- C2 (amended): provided `2^(band_level+1) <= num_planes`, the
adjusted plane index passed to `threshold_func` equals
`(p - 2^(band_level+1)) mod num_planes` and lies in
`[0, num_planes)`. -/
theorem C2_wrap_in_range (lvl p np : ℕ) (hp : p < np)
    (hR : 2 ^ (lvl + 1) ≤ np) :
    adjusted_plane lvl p np = ((p : ℤ) - 2 ^ (lvl + 1)) % (np : ℤ) ∧
    0 ≤ adjusted_plane lvl p np ∧ adjusted_plane lvl p np < (np : ℤ) := by
  have hRz : (2 : ℤ) ^ (lvl + 1) ≤ (np : ℤ) := by exact_mod_cast hR
  have hpz : (p : ℤ) < (np : ℤ) := by exact_mod_cast hp
  have hp0 : (0 : ℤ) ≤ (p : ℤ) := Int.ofNat_nonneg p
  have hpow : (0 : ℤ) < 2 ^ (lvl + 1) := pow_pos (by norm_num) _
  unfold adjusted_plane
  generalize (2 : ℤ) ^ (lvl + 1) = R at hRz hpow ⊢
  dsimp only
  rw [if_neg (show ¬ ((p : ℤ) - R ≥ (np : ℤ)) from by omega)]
  by_cases hc : (p : ℤ) - R < 0
  · rw [if_pos hc]
    have h0 : 0 ≤ (p : ℤ) - R + np := by omega
    have hlt : (p : ℤ) - R + np < np := by omega
    have e1 : ((p : ℤ) - R) % (np : ℤ) = ((p : ℤ) - R + np * 1) % (np : ℤ) :=
      (Int.add_mul_emod_self_left _ _ _).symm
    rw [mul_one] at e1
    rw [e1, Int.emod_eq_of_lt h0 hlt]
    exact ⟨rfl, h0, hlt⟩
  · rw [if_neg hc]
    push_neg at hc
    have hlt : (p : ℤ) - R < np := by omega
    exact ⟨(Int.emod_eq_of_lt hc hlt).symm, hc, hlt⟩

/-- Witness for `C2_wrap_in_range`: the spec example `num_planes = 8`,
`band_level = 0`, `p = 0` gives `0 - 2 = -2`, wrapping to `6`. -/
theorem C2_wrap_in_range_witness :
    (0 < 8) ∧ (2 ^ (0 + 1) ≤ 8) ∧
    (adjusted_plane 0 0 8 = ((0 : ℤ) - 2 ^ (0 + 1)) % (8 : ℤ) ∧
      0 ≤ adjusted_plane 0 0 8 ∧ adjusted_plane 0 0 8 < (8 : ℤ)) :=
  ⟨by decide, by decide, C2_wrap_in_range 0 0 8 (by decide) (by decide)⟩

/-! ### Claim C3 -/

/-- C3: for every input bundle and every choice of the other arguments,
`threshold_by_band` (both the whole-band and the per-plane branch) and
`low_pass_spatial_filter` leave the final entry `bundle[-1]` (the
low-pass band) unchanged. -/
theorem C3_low_pass_untouched
    (coefs1 : List (List ℚ)) (f1 : List ℚ → ℕ → Option ℤ → ℚ × ℚ)
    (skip_bands : List ℕ) (scaling : Option ℚ)
    (coefs3 : List Arr3) (f3 : List (List ℚ) → ℕ → ℤ → ℚ × ℚ) (ax : ℕ)
    (coefsL : List Arr3) (axL : ℕ) (lo hi : ℤ) (max_band : ℕ) :
    (threshold_by_band_1d coefs1 f1 skip_bands scaling).getLast?
      = coefs1.getLast? ∧
    (threshold_by_band_3d_axis coefs3 f3 skip_bands ax scaling).getLast?
      = coefs3.getLast? ∧
    (low_pass_spatial_filter coefsL axL lo hi max_band).getLast?
      = coefsL.getLast? :=
  ⟨getLast?_mapIdxF_id _ _ (fun _ => if_neg (lt_irrefl _)),
   getLast?_mapIdxF_id _ _ (fun _ => if_neg (lt_irrefl _)),
   getLast?_mapIdxF_id _ _ (fun _ => if_neg (lt_irrefl _))⟩

/-! ### Claim C4 -/

/-- C4: for a transform handle configured on shape `S` (so with
`len(example_coefs)` arrays of shape `S`), `vec_to_coefs(coefs_to_vec(B))`
equals `B` element-wise for every bundle `B` consisting of
`len(example_coefs)` arrays all of shape `S`. -/
theorem C4_vectorize_round_trip (S : List ℕ) (coefs : List NDArr)
    (hne : coefs ≠ [])
    (hsh : ∀ a ∈ coefs, a.shape = S ∧ a.data.length = S.prod) :
    vec_to_coefs S coefs.length (coefs_to_vec coefs) = some coefs := by
  have hn : coefs.length ≠ 0 := fun h => hne (List.length_eq_zero.mp h)
  have hdata : ∀ l ∈ coefs.map NDArr.data, l.length = S.prod := by
    intro l hl
    obtain ⟨a, ha, rfl⟩ := List.mem_map.mp hl
    exact (hsh a ha).2
  have hlen : (coefs_to_vec coefs).length = coefs.length * S.prod := by
    rw [coefs_to_vec, flatten_length_const _ _ hdata, List.length_map]
  have hmod : (coefs_to_vec coefs).length % coefs.length = 0 := by
    rw [hlen]; exact Nat.mul_mod_right _ _
  have hdiv : (coefs_to_vec coefs).length / coefs.length = S.prod := by
    rw [hlen]; exact Nat.mul_div_cancel_left _ (Nat.pos_of_ne_zero hn)
  rw [vec_to_coefs, if_neg hn, if_pos ⟨hmod, hdiv⟩, hdiv]
  have hsplit : splitN coefs.length S.prod (coefs_to_vec coefs)
      = coefs.map NDArr.data := by
    rw [coefs_to_vec, ← List.length_map coefs NDArr.data]
    exact splitN_flatten _ _ hdata
  rw [hsplit, List.map_map]
  have hmk : coefs.map ((fun chunk => (⟨S, chunk⟩ : NDArr)) ∘ NDArr.data)
      = coefs := by
    apply map_eq_self_of
    intro a ha
    obtain ⟨sh, d⟩ := a
    have h1 : sh = S := (hsh ⟨sh, d⟩ ha).1
    exact congrArg (fun s => (⟨s, d⟩ : NDArr)) h1.symm
  rw [hmk]

/-- Witness for `C4_vectorize_round_trip` on a two-array bundle of
shape `[2]`. -/
theorem C4_vectorize_round_trip_witness :
    (([⟨[2], [1, 2]⟩, ⟨[2], [3, 4]⟩] : List NDArr) ≠ []) ∧
    vec_to_coefs [2] ([⟨[2], [1, 2]⟩, ⟨[2], [3, 4]⟩] : List NDArr).length
      (coefs_to_vec [⟨[2], [1, 2]⟩, ⟨[2], [3, 4]⟩])
      = some [⟨[2], [1, 2]⟩, ⟨[2], [3, 4]⟩] :=
  ⟨by simp, C4_vectorize_round_trip [2] _ (by simp) (by
    intro a ha
    rcases List.mem_cons.mp ha with rfl | ha2
    · exact ⟨rfl, rfl⟩
    rcases List.mem_cons.mp ha2 with rfl | ha3
    · exact ⟨rfl, rfl⟩
    · simp at ha3)⟩

/-! ### Claim C5 -/

/-- C5: evaluation of the whole-band branch at a failing input.  The
three `np.where` edits are applied sequentially to the mutating array,
so a coefficient `3/2` with threshold `1` is first reduced to `1/2`
(step 1) and then zeroed (step 2), whereas soft thresholding as stated
by the claim (and by the comment above the code) yields `1/2`. -/
theorem C5_sequential_edit_not_soft :
    threshold_by_band_1d [[3/2], [0]] (fun _ _ _ => (0, 1)) [] none
      = [[0], [0]] ∧
    soft_threshold 1 (3/2) = 1/2 ∧ ((1 : ℚ)/2 ≠ 0) := by
  refine ⟨?_, by norm_num [soft_threshold, abs_of_nonneg], by norm_num⟩
  norm_num [threshold_by_band_1d, whole_band_edit, soft_step, applyScaling,
    band_level, mapIdxF, abs_of_nonneg]

/-! ### Claim C6 -/

/-- C6, counterexample: with the constant deterministic threshold
function returning `(0, 1)` and no skipped bands, one application maps
the detail band `[4]` to `[3]`, and a second application maps it
further to `[2]`: applying twice is not the same as applying once. -/
theorem C6_counterexample :
    threshold_by_band_1d
        (threshold_by_band_1d [[4], [0]] (fun _ _ _ => (0, 1)) [] none)
        (fun _ _ _ => (0, 1)) [] none = [[2], [0]] ∧
    threshold_by_band_1d [[4], [0]] (fun _ _ _ => (0, 1)) [] none
      = [[3], [0]] ∧
    ([[2], [0]] : List (List ℚ)) ≠ [[3], [0]] := by
  refine ⟨?_, ?_, by norm_num⟩ <;>
    norm_num [threshold_by_band_1d, whole_band_edit, soft_step, applyScaling,
      band_level, mapIdxF, abs_of_nonneg]

/-- C6 (amended): applying `threshold_by_band` twice with the same
deterministic `threshold_func`, empty `skip_bands` and the remaining
arguments at their defaults (whole-band mode, no scaling) yields the
same bundle as applying it once, provided the thresholds returned by
`threshold_func` are always nonnegative and every coefficient of each
detail band lies within the threshold returned for that band (one
application then zeroes those bands, and zero bands are fixed
points). -/
theorem C6_twice_eq_once (coefs : List (List ℚ))
    (f : List ℚ → ℕ → Option ℤ → ℚ × ℚ)
    (hT : ∀ a lvl o, 0 ≤ (f a lvl o).2)
    (hv : ∀ b, b < coefs.length - 1 →
      ∀ x ∈ coefs.getD b [], |x| ≤ (f (coefs.getD b []) (band_level b) none).2) :
    threshold_by_band_1d (threshold_by_band_1d coefs f [] none) f [] none
      = threshold_by_band_1d coefs f [] none := by
  set out := threshold_by_band_1d coefs f [] none with hout
  have hlen : out.length = coefs.length := length_mapIdxF _ _ _
  have hzero : ∀ b band, b < coefs.length - 1 → out[b]? = some band →
      ∀ x ∈ band, x = 0 := by
    intro b band hb hsome x hx
    rw [hout, threshold_by_band_1d, getElem?_mapIdxF] at hsome
    cases hc : coefs[b]? with
    | none => rw [hc] at hsome; simp at hsome
    | some c =>
      rw [hc] at hsome
      simp only [Option.map_some', Option.some.injEq, Nat.zero_add] at hsome
      rw [if_pos hb] at hsome
      simp only [List.not_mem_nil, if_false] at hsome
      subst hsome
      simp only [whole_band_edit, applyScaling] at hx
      obtain ⟨y, hy, rfl⟩ := List.mem_map.mp hx
      have hyv : |y| ≤ (f c (band_level b) none).2 := by
        have hgd : coefs.getD b [] = c := by
          rw [List.getD_eq_getElem?_getD, hc]; rfl
        have := hv b hb y (by rw [hgd]; exact hy)
        rwa [hgd] at this
      exact soft_step_eq_zero _ _ (hT c (band_level b) none) hyv
  apply List.ext_getElem?
  intro j
  rw [threshold_by_band_1d, getElem?_mapIdxF]
  cases ho : out[j]? with
  | none => simp
  | some band =>
    simp only [Option.map_some', Nat.zero_add]
    by_cases hj : j < out.length - 1
    · rw [if_pos hj]
      simp only [List.not_mem_nil, if_false]
      have hball : ∀ x ∈ band, x = 0 := by
        apply hzero j band (by omega) ho
      simp only [whole_band_edit, applyScaling]
      congr 1
      apply map_eq_self_of
      intro x hx
      rw [hball x hx]
      exact soft_step_eq_zero _ _ (hT band (band_level j) none)
        (by rw [abs_zero]; exact hT band (band_level j) none)
    · rw [if_neg hj]

/-- Witness for `C6_twice_eq_once` with the constant threshold function
`(0, 1)` on a bundle whose only detail coefficient is `1/2`. -/
theorem C6_twice_eq_once_witness :
    threshold_by_band_1d
        (threshold_by_band_1d [[1/2], [5]] (fun _ _ _ => (0, 1)) [] none)
        (fun _ _ _ => (0, 1)) [] none
      = threshold_by_band_1d [[1/2], [5]] (fun _ _ _ => (0, 1)) [] none :=
  C6_twice_eq_once [[1/2], [5]] (fun _ _ _ => (0, 1))
    (fun _ _ _ => by norm_num)
    (by
      intro b hb x hx
      have hb0 : b = 0 := by simp at hb; omega
      subst hb0
      simp only [List.getD] at hx ⊢
      have hx2 : x = 1/2 := by simpa using hx
      subst hx2
      rw [abs_of_nonneg (by norm_num)]
      norm_num)

/-! ### Claim C7 -/

/-- C7, counterexample: with `bundle`, `numerator` and `denominator` of
length 1 but `normalization` of length 2 the four sequences do not all
share the same length, yet `multiplicative_update` raises no error and
completes (here returning the band unchanged since all factors are 1
and `alpha = 0`). -/
theorem C7_counterexample :
    multiplicative_update [[1]] [[1]] [[1]] [[1], [1]] 0 = .ok [[1]] ∧
    ([[(1 : ℚ)]] : List (List ℚ)).length
      ≠ ([[(1 : ℚ)], [1]] : List (List ℚ)).length := by
  refine ⟨?_, by simp⟩
  norm_num [multiplicative_update, multiplicative_update_band, List.foldlM,
    List.range_succ]

/-- C7 (amended): `multiplicative_update` raises its length-check
error, before mutating any band, whenever `bundle`, `numerator` and
`denominator` do not all share the same length; the length of
`normalization` is not part of the check. -/
theorem C7_three_way_length_guard
    (coefs numerator denominator normalization : List (List ℚ)) (alpha : ℚ)
    (h : ¬ (coefs.length = numerator.length
      ∧ numerator.length = denominator.length)) :
    multiplicative_update coefs numerator denominator normalization alpha
      = .error .assertionError := by
  rw [multiplicative_update, if_neg h]

/-- Witness for `C7_three_way_length_guard` with a numerator shorter
than the bundle. -/
theorem C7_three_way_length_guard_witness :
    (¬ (([[(1 : ℚ)]] : List (List ℚ)).length = ([] : List (List ℚ)).length
      ∧ ([] : List (List ℚ)).length = ([] : List (List ℚ)).length)) ∧
    multiplicative_update [[(1 : ℚ)]] [] [] [] 0
      = .error .assertionError :=
  ⟨by simp, C7_three_way_length_guard [[(1 : ℚ)]] [] [] [] 0 (by simp)⟩

/-! ### Claim C8 -/

/-- C8, counterexample: a caller-supplied `num_bands = 0` is not
positive, yet `modwt_transform` raises no error: the derivation and the
`assert num_bands > 0` are executed only when `num_bands == None`, so
the call reaches the 1-D engine with `num_bands = 0`. -/
theorem C8_counterexample :
    modwt_transform [16] (some 0) = .ok ⟨1, 0⟩ ∧ ¬ ((0 : ℤ) > 0) :=
  ⟨rfl, by decide⟩

/-- C8 (amended): the forward transform fails with the band-count
assertion whenever the auto-derived value
`ceil(log2(min(shape))) - 3` is not positive; a caller-supplied
`num_bands` is forwarded to the engine without any positivity check. -/
theorem C8_auto_band_guard (shape : List ℕ) (_hne : shape ≠ [])
    (h : (clog2 (shapeMin shape) : ℤ) - 3 ≤ 0) :
    modwt_transform shape none = .error .assertionError := by
  unfold modwt_transform
  dsimp only
  rw [if_neg (by omega)]

/-- Witness for `C8_auto_band_guard`: a 1-D signal of length 8 derives
`ceil(log2 8) - 3 = 0` bands and trips the assertion. -/
theorem C8_auto_band_guard_witness :
    (([8] : List ℕ) ≠ []) ∧ ((clog2 (shapeMin [8]) : ℤ) - 3 ≤ 0) ∧
    modwt_transform [8] none = .error .assertionError :=
  ⟨by simp, by decide, C8_auto_band_guard [8] (by simp) (by decide)⟩

/-! ### Claim C9 -/

theorem zipWith_add_ones (c u : List ℚ) (hl : u.length = c.length)
    (h1 : ∀ x ∈ u, x = 1) :
    List.zipWith (· + ·) c (u.map (fun x => (2 : ℚ) * x))
      = c.map (· + 2) := by
  induction c generalizing u with
  | nil => simp
  | cons a c ih =>
    cases u with
    | nil => simp at hl
    | cons b u =>
      have hb : b = 1 := h1 b (by simp)
      simp only [List.map_cons, List.zipWith_cons_cons, hb]
      rw [show a + 2 * 1 = a + 2 by norm_num,
        ih u (by simpa using hl) (fun x hx => h1 x (by simp [hx]))]

theorem sq_sum_ones (u : List ℚ) (h1 : ∀ x ∈ u, x = 1) :
    ((u.map (fun x => (2 : ℚ) * x)).map (fun x => x ^ 2)).sum
      = 4 * (u.length : ℚ) := by
  induction u with
  | nil => simp
  | cons b u ih =>
    have hb : b = 1 := h1 b (by simp)
    simp only [List.map_cons, List.sum_cons, hb, List.length_cons,
      ih (fun x hx => h1 x (by simp [hx]))]
    push_cast
    ring

/-- C9: `additive_update` (named `update` in the source), given a
bundle and an update sequence of equal length and matching shapes whose
arrays are all ones, adds `alpha * update[b] = 2` to each coefficient
in place, and the reported update squared sum is `4 * N` where `N` is
the total element count, so the update norm
`sqrt(update_squared_sum)` equals `2 * sqrt(N)`. -/
theorem C9_additive_update (coefs upd : List (List ℚ))
    (hsh : List.Forall₂ (fun c u => u.length = c.length) coefs upd)
    (hone : ∀ u ∈ upd, ∀ x ∈ u, x = 1) :
    update coefs upd 2
      = .ok (coefs.map (fun c => c.map (· + 2)),
        4 * (((upd.map List.length).sum : ℕ) : ℚ)) ∧
    Real.sqrt ((4 * (((upd.map List.length).sum : ℕ) : ℚ) : ℚ) : ℝ)
      = 2 * Real.sqrt (((upd.map List.length).sum : ℕ) : ℝ) := by
  have h1 : List.zipWith (fun c d => List.zipWith (· + ·) c d) coefs
      (upd.map (fun u => u.map (fun x => (2 : ℚ) * x)))
      = coefs.map (fun c => c.map (· + 2)) := by
    induction hsh with
    | nil => simp
    | @cons c u coefs upd hcu htail ih =>
      simp only [List.map_cons, List.zipWith_cons_cons]
      rw [zipWith_add_ones c u hcu (fun x hx => hone u (by simp) x hx),
        ih (fun v hv x hx => hone v (by simp [hv]) x hx)]
  have h2 : ((upd.map (fun u => u.map (fun x => (2 : ℚ) * x))).map
      (fun d => (d.map (fun x => x ^ 2)).sum)).sum
      = 4 * (((upd.map List.length).sum : ℕ) : ℚ) := by
    clear h1 hsh
    induction upd with
    | nil => simp
    | cons u upd ih =>
      rw [List.map_cons, List.map_cons, List.sum_cons,
        sq_sum_ones u (fun x hx => hone u (by simp) x hx),
        ih (fun v hv x hx => hone v (by simp [hv]) x hx),
        List.map_cons, List.sum_cons]
      push_cast
      ring
  constructor
  · rw [update, if_pos hsh.length_eq]
    dsimp only
    rw [h1, h2]
  · generalize (upd.map List.length).sum = n
    have hc : ((4 * ((n : ℕ) : ℚ) : ℚ) : ℝ) = 4 * ((n : ℕ) : ℝ) := by
      push_cast; ring
    rw [hc, show (4 : ℝ) = 2 ^ 2 by norm_num,
      Real.sqrt_mul (by positivity) _, Real.sqrt_sq (by norm_num)]

/-- Witness for `C9_additive_update`: two all-ones bands with a total
of `N = 2` elements and `alpha = 2`. -/
theorem C9_additive_update_witness :
    update [[5], [6]] [[1], [1]] 2
      = .ok (([[5], [6]] : List (List ℚ)).map (fun c => c.map (· + 2)),
        4 * (((([[(1 : ℚ)], [1]] : List (List ℚ)).map List.length).sum : ℕ) : ℚ)) ∧
    Real.sqrt ((4 * (((([[(1 : ℚ)], [1]] : List (List ℚ)).map List.length).sum : ℕ) : ℚ) : ℚ) : ℝ)
      = 2 * Real.sqrt (((([[(1 : ℚ)], [1]] : List (List ℚ)).map List.length).sum : ℕ) : ℝ) :=
  C9_additive_update [[5], [6]] [[1], [1]]
    (List.forall₂_cons.mpr ⟨rfl, List.forall₂_cons.mpr ⟨rfl, List.Forall₂.nil⟩⟩)
    (by
      intro u hu x hx
      rcases List.mem_cons.mp hu with rfl | hu2
      · simpa using hx
      rcases List.mem_cons.mp hu2 with rfl | hu3
      · simpa using hx
      · simp at hu3)

/-! ### Claim C10 -/

/-- C10: with its default `range = (0, 0)`, and more generally whenever
`hi <= lo + 1`, `low_pass_spatial_filter` leaves every array of the
bundle unchanged: the gate requires an integer plane index `p` with
`lo < p` and `p < hi`, which no integer satisfies. -/
theorem C10_empty_range_identity (coefs : List Arr3) (within_axis : ℕ)
    (lo hi : ℤ) (max_band : ℕ) (h : hi ≤ lo + 1) :
    low_pass_spatial_filter coefs within_axis lo hi max_band = coefs := by
  apply mapIdxF_eq_self
  intro b a
  by_cases hb : b < coefs.length - 1
  · rw [if_pos hb]
    dsimp only
    have hcond : ∀ p : ℕ, ¬ ((p : ℤ) > lo ∧ (p : ℤ) < hi
        ∧ band_level b < max_band) := by
      rintro p ⟨h1, h2, _⟩
      omega
    split_ifs with hx0 hx1
    · exact mapIdxF_eq_self _ _ _ (fun p mat => if_neg (hcond p))
    · exact map_eq_self_of _ _ (fun mat _ =>
        mapIdxF_eq_self _ _ _ (fun j row => if_neg (hcond j)))
    · exact map_eq_self_of _ _ (fun mat _ =>
        map_eq_self_of _ _ (fun row _ =>
          mapIdxF_eq_self _ _ _ (fun k x => if_neg (hcond k))))
  · rw [if_neg hb]

/-- Witness for `C10_empty_range_identity` at the default range
`(0, 0)`. -/
theorem C10_empty_range_identity_witness :
    ((0 : ℤ) ≤ 0 + 1) ∧
    low_pass_spatial_filter [[[[1]]], [[[2]]]] 2 0 0 1 = [[[[1]]], [[[2]]]] :=
  ⟨by decide, C10_empty_range_identity [[[[1]]], [[[2]]]] 2 0 0 1 (by decide)⟩

end Pymultiscale
